import Mathlib

/-!
Verification of the turnstile data-wrangling pipeline.

Shallow embedding of the core of `wrangle_data.py` (`clean`, `calc_nets`,
`agg_by`) and of the metric derivations in `get_metrics.py`
(`total_daily_entries` / `pct_daily_entries`, `density`).

Modelling conventions:
* A pandas row is the structure `R`.  All raw columns of the turnstile file
  are present; the surrogate-id columns (`tuid`, `buid`, `suid`, `ts_count`)
  and the derived columns (`net_entries`, `net_exits`, `traffic`) start at
  default values and are filled in by the pipeline stages, mirroring column
  assignment on a DataFrame.  The `desc` column is modelled as
  `Option String`: it is the representative nullable raw column, used to
  model missing values (`NaN`) in a column unrelated to the net computation.
  `net_entries`, `net_exits` and `traffic` are `Option Int`, `none` playing
  the role of `NaN`.
* A DataFrame at the `calc_nets` boundary is `DF`: a row list together with
  two flags recording whether the `net_entries` / `net_exits` columns exist
  (`calc_nets` tests column *presence*, not values).
* `pd.factorize` is modelled by `factorize`: each element is coded by the
  position of its first occurrence among the distinct values in
  first-occurrence order, new values receiving consecutive codes.
* Python's `str.strip` is modelled by `pyStrip` (structural, so that proofs
  can evaluate it); it removes leading and trailing whitespace characters.
* `DataFrame.sort_values` is modelled by an insertion sort on the same sort
  key `[suid, tuid, datetime]`; every property proved below depends on the
  sorted output only through the multiset of rows (plus the key order), so
  the choice of sorting algorithm is immaterial.
* Timestamps are minutes since an epoch (`datetime : Nat`); calendar date is
  `datetime / 1440`, time of day `datetime % 1440`, day of week
  `(datetime / 1440) % 7`, weekdays `< 5`.  Integer counters are `Int`.
-/

/-- One row of the turnstile table (all columns of the pipeline). -/
structure R where
  c_a : String
  unit : String
  scp : String
  station : String
  linename : String
  division : String
  desc : Option String
  datetime : Nat
  entries : Int
  exits : Int
  tuid : Nat := 0
  buid : Nat := 0
  suid : Nat := 0
  ts_count : Nat := 0
  net_entries : Option Int := none
  net_exits : Option Int := none
  traffic : Option Int := none
deriving DecidableEq

/-- DataFrame at the `calc_nets` boundary: rows plus presence flags for the
two net columns (`'net_entries' in df.columns`, `'net_exits' in df.columns`). -/
structure DF where
  hasNetEntries : Bool
  hasNetExits : Bool
  rows : List R
deriving DecidableEq

/-- Drop leading whitespace characters from a character list. -/
def dropLeadWS : List Char → List Char
  | [] => []
  | c :: cs => if c.isWhitespace then dropLeadWS cs else c :: cs

/-- Python `str.strip`: remove leading and trailing whitespace. -/
def pyStrip (s : String) : String :=
  ⟨(dropLeadWS (dropLeadWS s.data).reverse).reverse⟩

/-- The whitespace strip applied by `clean` to every string column
(`df[col].str.strip()` over `str_cols`). -/
def strip (r : R) : R :=
  { r with c_a := pyStrip r.c_a, unit := pyStrip r.unit, scp := pyStrip r.scp,
           station := pyStrip r.station, linename := pyStrip r.linename,
           division := pyStrip r.division, desc := r.desc.map pyStrip }

/-- Turnstile natural key as `clean` builds it:
`df['c_a'] + df['unit'] + df['scp'] + df['station']` (string concatenation). -/
def tkeyOf (r : R) : String := r.c_a ++ r.unit ++ r.scp ++ r.station

/-- Station natural key: `df['station'] + df['linename']`. -/
def skeyOf (r : R) : String := r.station ++ r.linename

/-- Booth natural key: `df['c_a'] + df['unit'] + df['station'] + df['linename']`. -/
def bkeyOf (r : R) : String := r.c_a ++ r.unit ++ r.station ++ r.linename

/-- The turnstile natural-key tuple (the spec's view of turnstile identity). -/
def tupleOf (r : R) : String × String × String × String :=
  (r.c_a, r.unit, r.scp, r.station)

/-- Index of the first occurrence of `a` in a list (0 if absent at the end). -/
def idxOf [DecidableEq α] (a : α) : List α → Nat
  | [] => 0
  | b :: l => if b = a then 0 else idxOf a l + 1

/-- Distinct values of a list in first-occurrence order (accumulator form);
this is the `uniques` component of `pd.factorize`. -/
def uniquesAux [DecidableEq α] : List α → List α → List α
  | [], acc => acc
  | k :: ks, acc => uniquesAux ks (if k ∈ acc then acc else acc ++ [k])

/-- Distinct values of a list in first-occurrence order. -/
def uniques [DecidableEq α] (l : List α) : List α := uniquesAux l []

/-- Code component of `pd.factorize`: a seen value is coded by its position
among the values seen so far, a new value receives the next dense code. -/
def factorizeAux [DecidableEq α] : List α → List α → List Nat
  | [], _ => []
  | k :: ks, seen =>
      if k ∈ seen then idxOf k seen :: factorizeAux ks seen
      else seen.length :: factorizeAux ks (seen ++ [k])

/-- Codes of `pd.factorize(keys)[0]`. -/
def factorize [DecidableEq α] (l : List α) : List Nat := factorizeAux l []

/-- Assign the three factorize code columns to the rows
(`df['tuid'] = ...`, `df['suid'] = ...`, `df['buid'] = ...`). -/
def tag3 : List R → List Nat → List Nat → List Nat → List R
  | r :: rs, a :: as, b :: bs, c :: cs =>
      { r with tuid := a, suid := b, buid := c } :: tag3 rs as bs cs
  | _, _, _, _ => []

/-- Sort key of `df.sort_values(['suid','tuid','datetime'])` (lexicographic). -/
def rowLe (a b : R) : Bool :=
  decide (a.suid < b.suid ∨ (a.suid = b.suid ∧
    (a.tuid < b.tuid ∨ (a.tuid = b.tuid ∧ a.datetime ≤ b.datetime))))

/-- Insert a row into a `rowLe`-sorted list. -/
def insertRow (r : R) : List R → List R
  | [] => [r]
  | s :: l => if rowLe r s then r :: s :: l else s :: insertRow r l

/-- Model of `df.sort_values(['suid','tuid','datetime'])` (insertion sort). -/
def sortRows : List R → List R
  | [] => []
  | r :: l => insertRow r (sortRows l)

/-- Rows after stripping and id assignment, before sorting. -/
def cleanTagged (rows : List R) : List R :=
  let s := rows.map strip
  tag3 s (factorize (s.map tkeyOf)) (factorize (s.map skeyOf))
    (factorize (s.map bkeyOf))

/-- Distinct turnstile count of station `v` in table `l`
(`df.groupby('suid')['tuid'].nunique()` looked up at `v`). -/
def tsc (l : List R) (v : Nat) : Nat :=
  (uniques ((l.filter (fun x => decide (x.suid = v))).map (fun x => x.tuid))).length

/-- The Identifier Resolver `clean`: strip string columns, factorize the three
concatenated natural keys into `tuid` / `suid` / `buid`, sort by
`[suid, tuid, datetime]`, then attach the per-station turnstile count. -/
def clean (rows : List R) : List R :=
  let srt := sortRows (cleanTagged rows)
  srt.map (fun r => { r with ts_count := tsc srt r.suid })

/-! Basic facts about `idxOf`, `uniques` and `factorize`. -/

theorem idxOf_lt_length [DecidableEq α] {a : α} :
    ∀ {l : List α}, a ∈ l → idxOf a l < l.length := by
  intro l
  induction l with
  | nil => intro h; cases h
  | cons b t ih =>
      intro h
      by_cases hb : b = a
      · simp [idxOf, hb]
      · rcases List.mem_cons.1 h with e | hm
        · exact absurd e.symm hb
        · simpa [idxOf, hb] using Nat.succ_lt_succ (ih hm)

theorem idxOf_append_of_mem [DecidableEq α] {a : α} (l₂ : List α) :
    ∀ {l₁ : List α}, a ∈ l₁ → idxOf a (l₁ ++ l₂) = idxOf a l₁ := by
  intro l₁
  induction l₁ with
  | nil => intro h; cases h
  | cons b t ih =>
      intro h
      by_cases hb : b = a
      · simp [idxOf, hb]
      · rcases List.mem_cons.1 h with e | hm
        · exact absurd e.symm hb
        · simp [idxOf, hb, ih hm]

theorem idxOf_append_self [DecidableEq α] {a : α} :
    ∀ {l : List α}, a ∉ l → idxOf a (l ++ [a]) = l.length := by
  intro l
  induction l with
  | nil => intro _; simp [idxOf]
  | cons b t ih =>
      intro h
      have hb : b ≠ a := fun e => h (e ▸ List.mem_cons_self b t)
      have ht : a ∉ t := fun m => h (List.mem_cons_of_mem b m)
      simp [idxOf, hb, ih ht]

theorem idxOf_inj [DecidableEq α] {a b : α} :
    ∀ {l : List α}, a ∈ l → b ∈ l → idxOf a l = idxOf b l → a = b := by
  intro l
  induction l with
  | nil => intro ha; cases ha
  | cons c t ih =>
      intro ha hb h
      by_cases hca : c = a <;> by_cases hcb : c = b
      · exact hca.symm.trans hcb
      · simp only [idxOf, if_pos hca, if_neg hcb] at h
        omega
      · simp only [idxOf, if_neg hca, if_pos hcb] at h
        omega
      · simp only [idxOf, if_neg hca, if_neg hcb, Nat.add_right_cancel_iff] at h
        rcases List.mem_cons.1 ha with e | ha2
        · exact absurd e.symm hca
        · rcases List.mem_cons.1 hb with e | hb2
          · exact absurd e.symm hcb
          · exact ih ha2 hb2 h

theorem mem_uniquesAux [DecidableEq α] {a : α} :
    ∀ (l acc : List α), a ∈ uniquesAux l acc ↔ a ∈ acc ∨ a ∈ l := by
  intro l
  induction l with
  | nil => intro acc; simp [uniquesAux]
  | cons k ks ih =>
      intro acc
      by_cases hk : k ∈ acc
      · simp only [uniquesAux, if_pos hk, ih acc, List.mem_cons]
        constructor
        · rintro (h | h)
          · exact Or.inl h
          · exact Or.inr (Or.inr h)
        · rintro (h | rfl | h)
          · exact Or.inl h
          · exact Or.inl hk
          · exact Or.inr h
      · simp only [uniquesAux, if_neg hk, ih (acc ++ [k]), List.mem_append,
          List.mem_singleton, List.mem_cons]
        tauto

theorem nodup_uniquesAux [DecidableEq α] :
    ∀ (l acc : List α), acc.Nodup → (uniquesAux l acc).Nodup := by
  intro l
  induction l with
  | nil => intro acc h; exact h
  | cons k ks ih =>
      intro acc h
      by_cases hk : k ∈ acc
      · simp only [uniquesAux, if_pos hk]
        exact ih acc h
      · simp only [uniquesAux, if_neg hk]
        refine ih (acc ++ [k]) ?_
        refine List.nodup_append.2 ⟨h, List.nodup_singleton k, fun x hx hxk => ?_⟩
        have : x = k := by simpa using hxk
        exact hk (this ▸ hx)

theorem nodup_uniques [DecidableEq α] (l : List α) : (uniques l).Nodup :=
  nodup_uniquesAux l [] List.nodup_nil

theorem mem_uniques [DecidableEq α] {a : α} {l : List α} :
    a ∈ uniques l ↔ a ∈ l := by
  simpa using mem_uniquesAux l []

theorem uniquesAux_shape [DecidableEq α] :
    ∀ (l acc : List α), ∃ t, uniquesAux l acc = acc ++ t := by
  intro l
  induction l with
  | nil => intro acc; exact ⟨[], by simp [uniquesAux]⟩
  | cons k ks ih =>
      intro acc
      by_cases hk : k ∈ acc
      · simpa [uniquesAux, hk] using ih acc
      · obtain ⟨t, ht⟩ := ih (acc ++ [k])
        refine ⟨k :: t, ?_⟩
        simp only [uniquesAux, if_neg hk, ht, List.append_assoc,
          List.singleton_append]

theorem uniques_perm [DecidableEq α] {l₁ l₂ : List α} (h : l₁.Perm l₂) :
    (uniques l₁).Perm (uniques l₂) := by
  rw [List.perm_ext_iff_of_nodup (nodup_uniques _) (nodup_uniques _)]
  intro a
  rw [mem_uniques, mem_uniques]
  exact h.mem_iff

theorem uniques_ne_nil [DecidableEq α] {a : α} {l : List α} (h : a ∈ l) :
    uniques l ≠ [] := by
  intro e
  have : a ∈ uniques l := mem_uniques.2 h
  rw [e] at this
  cases this

theorem factorizeAux_eq_map [DecidableEq α] :
    ∀ (l seen : List α),
      factorizeAux l seen = l.map (fun k => idxOf k (uniquesAux l seen)) := by
  intro l
  induction l with
  | nil => intro seen; simp [factorizeAux]
  | cons k ks ih =>
      intro seen
      by_cases hk : k ∈ seen
      · obtain ⟨t, ht⟩ := uniquesAux_shape ks seen
        simp only [factorizeAux, if_pos hk, List.map_cons, uniquesAux, hk, if_pos]
        rw [ih seen, ht, idxOf_append_of_mem t hk]
      · obtain ⟨t, ht⟩ := uniquesAux_shape ks (seen ++ [k])
        have hk1 : k ∈ seen ++ [k] := by simp
        simp only [factorizeAux, if_neg hk, List.map_cons, uniquesAux]
        rw [ih (seen ++ [k]), ht, idxOf_append_of_mem t hk1, idxOf_append_self hk]

theorem factorize_eq_map [DecidableEq α] (l : List α) :
    factorize l = l.map (fun k => idxOf k (uniques l)) :=
  factorizeAux_eq_map l []

theorem factorize_uniques_range [DecidableEq α] :
    ∀ (l seen : List α),
      uniquesAux (factorizeAux l seen) (List.range seen.length)
        = List.range (uniquesAux l seen).length := by
  intro l
  induction l with
  | nil => intro seen; simp [factorizeAux, uniquesAux]
  | cons k ks ih =>
      intro seen
      by_cases hk : k ∈ seen
      · have hlt : idxOf k seen ∈ List.range seen.length :=
          List.mem_range.2 (idxOf_lt_length hk)
        simp only [factorizeAux, if_pos hk, uniquesAux, hk, if_pos, hlt]
        exact ih seen
      · have hnm : seen.length ∉ List.range seen.length := by simp
        simp only [factorizeAux, if_neg hk, uniquesAux, if_neg hnm,
          ← List.range_succ]
        have := ih (seen ++ [k])
        rw [List.length_append, List.length_singleton] at this
        exact this

theorem uniques_factorize_eq_range [DecidableEq α] (l : List α) :
    uniques (factorize l) = List.range (uniques l).length :=
  factorize_uniques_range l []

/-! Facts about the sorting step and the tagging step of `clean`. -/

theorem insertRow_perm (r : R) (l : List R) : (insertRow r l).Perm (r :: l) := by
  induction l with
  | nil => exact List.Perm.refl _
  | cons s t ih =>
      by_cases hc : rowLe r s
      · simp only [insertRow, if_pos hc]
        exact List.Perm.refl _
      · simp only [insertRow, if_neg hc]
        exact (ih.cons s).trans (List.Perm.swap r s t)

theorem sortRows_perm (l : List R) : (sortRows l).Perm l := by
  induction l with
  | nil => exact List.Perm.refl _
  | cons r t ih => exact (insertRow_perm r (sortRows t)).trans (ih.cons r)

/-- Row tagging as a single map: each row receives the code of its three
concatenated keys (the pointwise reading of the three factorize columns). -/
def tagFn (s : List R) (r : R) : R :=
  { r with tuid := idxOf (tkeyOf r) (uniques (s.map tkeyOf)),
           suid := idxOf (skeyOf r) (uniques (s.map skeyOf)),
           buid := idxOf (bkeyOf r) (uniques (s.map bkeyOf)) }

theorem tag3_map (f g h : R → Nat) :
    ∀ s : List R, tag3 s (s.map f) (s.map g) (s.map h)
      = s.map (fun r => { r with tuid := f r, suid := g r, buid := h r }) := by
  intro s
  induction s with
  | nil => rfl
  | cons r rs ih => simp [tag3, ih]

theorem cleanTagged_eq (rows : List R) :
    cleanTagged rows = (rows.map strip).map (tagFn (rows.map strip)) := by
  show tag3 (rows.map strip) _ _ _ = _
  generalize rows.map strip = s
  rw [factorize_eq_map, factorize_eq_map, factorize_eq_map,
    List.map_map, List.map_map, List.map_map]
  exact tag3_map _ _ _ s

theorem clean_eq_map (rows : List R) :
    clean rows = (sortRows (cleanTagged rows)).map
      (fun r => { r with ts_count := tsc (sortRows (cleanTagged rows)) r.suid }) :=
  rfl

theorem clean_spec (rows : List R) :
    ∀ x ∈ clean rows,
      x.tuid = idxOf (tkeyOf x) (uniques ((rows.map strip).map tkeyOf))
      ∧ x.suid = idxOf (skeyOf x) (uniques ((rows.map strip).map skeyOf))
      ∧ x.buid = idxOf (bkeyOf x) (uniques ((rows.map strip).map bkeyOf))
      ∧ tkeyOf x ∈ (rows.map strip).map tkeyOf
      ∧ skeyOf x ∈ (rows.map strip).map skeyOf
      ∧ bkeyOf x ∈ (rows.map strip).map bkeyOf := by
  intro x hx
  rw [clean_eq_map] at hx
  obtain ⟨r1, hr1, rfl⟩ := List.mem_map.1 hx
  have hr1m : r1 ∈ cleanTagged rows := (sortRows_perm _).mem_iff.1 hr1
  rw [cleanTagged_eq] at hr1m
  obtain ⟨r0, hr0, rfl⟩ := List.mem_map.1 hr1m
  have m1 : tkeyOf r0 ∈ (rows.map strip).map tkeyOf := List.mem_map_of_mem tkeyOf hr0
  have m2 : skeyOf r0 ∈ (rows.map strip).map skeyOf := List.mem_map_of_mem skeyOf hr0
  have m3 : bkeyOf r0 ∈ (rows.map strip).map bkeyOf := List.mem_map_of_mem bkeyOf hr0
  exact ⟨rfl, rfl, rfl, m1, m2, m3⟩

theorem clean_map_tuid_perm (rows : List R) :
    ((clean rows).map (fun r => r.tuid)).Perm
      (factorize ((rows.map strip).map tkeyOf)) := by
  have h1 : (clean rows).map (fun r => r.tuid)
      = (sortRows (cleanTagged rows)).map (fun r => r.tuid) := by
    rw [clean_eq_map, List.map_map]
    rfl
  have h2 : ((sortRows (cleanTagged rows)).map (fun r => r.tuid)).Perm
      ((cleanTagged rows).map (fun r => r.tuid)) :=
    (sortRows_perm _).map _
  have h3 : (cleanTagged rows).map (fun r => r.tuid)
      = factorize ((rows.map strip).map tkeyOf) := by
    conv_rhs => rw [factorize_eq_map, List.map_map]
    rw [cleanTagged_eq, List.map_map]
    rfl
  rw [h1, ← h3]
  exact h2

theorem clean_map_tkey_perm (rows : List R) :
    ((clean rows).map tkeyOf).Perm ((rows.map strip).map tkeyOf) := by
  have h1 : (clean rows).map tkeyOf
      = (sortRows (cleanTagged rows)).map tkeyOf := by
    rw [clean_eq_map, List.map_map]
    rfl
  have h2 : ((sortRows (cleanTagged rows)).map tkeyOf).Perm
      ((cleanTagged rows).map tkeyOf) :=
    (sortRows_perm _).map _
  have h3 : (cleanTagged rows).map tkeyOf = (rows.map strip).map tkeyOf := by
    rw [cleanTagged_eq, List.map_map]
    rfl
  rw [h1, ← h3]
  exact h2

theorem tkey_of_tuple_eq {r s : R} (h : tupleOf r = tupleOf s) :
    tkeyOf r = tkeyOf s := by
  simp only [tupleOf, Prod.mk.injEq] at h
  obtain ⟨h1, h2, h3, h4⟩ := h
  simp [tkeyOf, h1, h2, h3, h4]

/-- C2 (amended): after whitespace stripping, two rows of `clean`'s output
carry equal surrogate ids exactly when their *concatenated* natural-key
strings are equal (so identical natural-key tuples always receive equal
ids); the number of distinct ids equals the number of distinct concatenated
key strings; and the turnstile id column is, up to the reordering done by
the sort step, exactly the factorize code sequence, whose distinct values
are the dense integers `0, 1, 2, ...` in first-occurrence order.  (The
claim's "distinct natural-key tuples receive distinct ids" is false on the
code because the keys are concatenations — see the counterexample.) -/
theorem clean_resolver_amended (rows : List R) (r s : R)
    (hr : r ∈ clean rows) (hs : s ∈ clean rows) :
    ((r.tuid = s.tuid ↔ tkeyOf r = tkeyOf s)
      ∧ (r.suid = s.suid ↔ skeyOf r = skeyOf s)
      ∧ (r.buid = s.buid ↔ bkeyOf r = bkeyOf s)
      ∧ (tupleOf r = tupleOf s → r.tuid = s.tuid))
    ∧ (uniques ((clean rows).map (fun x => x.tuid))).length
        = (uniques ((clean rows).map tkeyOf)).length
    ∧ ((clean rows).map (fun x => x.tuid)).Perm
        (factorize ((rows.map strip).map tkeyOf))
    ∧ uniques (factorize ((rows.map strip).map tkeyOf))
        = List.range (uniques ((rows.map strip).map tkeyOf)).length := by
  obtain ⟨rt, rs, rb, rmt, rms, rmb⟩ := clean_spec rows r hr
  obtain ⟨st, ss, sb, smt, sms, smb⟩ := clean_spec rows s hs
  have key_iff : ∀ (kr ks : String) (L : List String), kr ∈ L → ks ∈ L →
      (idxOf kr (uniques L) = idxOf ks (uniques L) ↔ kr = ks) := by
    intro kr ks L hkr hks
    constructor
    · exact fun h => idxOf_inj (mem_uniques.2 hkr) (mem_uniques.2 hks) h
    · intro h; rw [h]
  have iff_t : r.tuid = s.tuid ↔ tkeyOf r = tkeyOf s := by
    rw [rt, st]; exact key_iff _ _ _ rmt smt
  have iff_s : r.suid = s.suid ↔ skeyOf r = skeyOf s := by
    rw [rs, ss]; exact key_iff _ _ _ rms sms
  have iff_b : r.buid = s.buid ↔ bkeyOf r = bkeyOf s := by
    rw [rb, sb]; exact key_iff _ _ _ rmb smb
  refine ⟨⟨iff_t, iff_s, iff_b, fun h => iff_t.2 (tkey_of_tuple_eq h)⟩, ?_, ?_, ?_⟩
  · have p1 : (uniques ((clean rows).map (fun x => x.tuid))).Perm
        (uniques (factorize ((rows.map strip).map tkeyOf))) :=
      uniques_perm (clean_map_tuid_perm rows)
    have p2 : (uniques ((clean rows).map tkeyOf)).Perm
        (uniques ((rows.map strip).map tkeyOf)) :=
      uniques_perm (clean_map_tkey_perm rows)
    rw [p1.length_eq, p2.length_eq, uniques_factorize_eq_range,
      List.length_range]
  · exact clean_map_tuid_perm rows
  · exact uniques_factorize_eq_range _

/-- Counterexample row: natural-key tuple ("AB", "C", "X", "S"). -/
def cexA : R :=
  { c_a := "AB", unit := "C", scp := "X", station := "S", linename := "L",
    division := "D", desc := some "REG", datetime := 0, entries := 0, exits := 0 }

/-- Counterexample row: natural-key tuple ("A", "BC", "X", "S"), which differs
from `cexA`'s tuple but concatenates to the same key string "ABCXS". -/
def cexB : R :=
  { c_a := "A", unit := "BC", scp := "X", station := "S", linename := "L",
    division := "D", desc := some "REG", datetime := 1, entries := 0, exits := 0 }

/-- C2 (counterexample): on the two-row table `[cexA, cexB]` the natural-key
tuples differ, yet `clean` assigns both rows the same turnstile id 0 — the
concatenated keys collide, refuting "any two rows with differing natural-key
tuples receive distinct ids" and "the number of distinct ids equals the
number of distinct natural-key tuples" (two tuples, one id). -/
theorem clean_resolver_cex :
    ((clean [cexA, cexB]).map (fun r => (r.tuid, tupleOf r)))
      = [(0, ("AB", "C", "X", "S")), (0, ("A", "BC", "X", "S"))]
    ∧ (("AB", "C", "X", "S") : String × String × String × String)
        ≠ ("A", "BC", "X", "S") := by decide

/-- The row of `clean [cexA]`'s output (ids 0, one turnstile at the station). -/
def cexAClean : R := { cexA with ts_count := 1 }

/-- Witness for the amended C2 theorem at a concrete table. -/
theorem clean_resolver_amended_witness :
    cexAClean ∈ clean [cexA]
    ∧ (((cexAClean.tuid = cexAClean.tuid ↔ tkeyOf cexAClean = tkeyOf cexAClean)
        ∧ (cexAClean.suid = cexAClean.suid ↔ skeyOf cexAClean = skeyOf cexAClean)
        ∧ (cexAClean.buid = cexAClean.buid ↔ bkeyOf cexAClean = bkeyOf cexAClean)
        ∧ (tupleOf cexAClean = tupleOf cexAClean → cexAClean.tuid = cexAClean.tuid))
      ∧ (uniques ((clean [cexA]).map (fun x => x.tuid))).length
          = (uniques ((clean [cexA]).map tkeyOf)).length
      ∧ ((clean [cexA]).map (fun x => x.tuid)).Perm
          (factorize (([cexA].map strip).map tkeyOf))
      ∧ uniques (factorize (([cexA].map strip).map tkeyOf))
          = List.range (uniques (([cexA].map strip).map tkeyOf)).length) :=
  ⟨by decide, clean_resolver_amended [cexA] cexAClean cexAClean (by decide) (by decide)⟩

/-! The Delta Reconciler `calc_nets`. -/

/-- Per-group running difference, the model of
`df.groupby(['tuid'])[col].diff()`: each row's value minus the value of the
previous row with the same `tuid` (in row order), `none` (NaN) for the first
row of each group.  `seen` carries the last value per `tuid` seen so far. -/
def groupDiff (f : R → Int) : List R → List (Nat × Int) → List (Option Int)
  | [], _ => []
  | r :: rs, seen =>
      (match List.lookup r.tuid seen with
       | some v => some (f r - v)
       | none => none) :: groupDiff f rs ((r.tuid, f r) :: seen)

/-- Model of `Series.shift(-1)`: drop the first entry, append a trailing NaN. -/
def shiftUp : List (Option Int) → List (Option Int)
  | [] => []
  | _ :: t => t ++ [none]

/-- Column assignment `df['net_entries'] = es; df['net_exits'] = xs`. -/
def setNets : List R → List (Option Int) → List (Option Int) → List R
  | r :: rs, e :: es, x :: xs =>
      { r with net_entries := e, net_exits := x } :: setNets rs es xs
  | _, _, _ => []

/-- Row predicate of `df.dropna()`: true when no nullable column is missing
(the nullable columns of the model are `desc`, `net_entries`, `net_exits`;
the `traffic` column does not exist yet at the `dropna` point). -/
def keepRow (r : R) : Bool :=
  r.desc.isSome && r.net_entries.isSome && r.net_exits.isSome

/-- Model of `df.dropna()` at the point it is called in `calc_nets`. -/
def dropna (l : List R) : List R := l.filter keepRow

/-- The diff / shift / dropna portion of `calc_nets` (its lines 138-144):
compute both net columns by grouped diff plus global shift, then drop the
rows left with a missing value.  The subsequent `astype(int)` is the
identity in the model because nets are already integers. -/
def netStage (rows : List R) : List R :=
  dropna (setNets rows
    (shiftUp (groupDiff (fun r => r.entries) rows []))
    (shiftUp (groupDiff (fun r => r.exits) rows [])))

/-- The anomaly threshold of `calc_nets` (at most one person every 2 seconds
over a 4 hour interval). -/
def threshold : Int := 7200

/-- The boolean row filter of `calc_nets`:
`(net_entries>=0) & (net_exits>=0) & (net_entries<=threshold) & (net_exits<=threshold)`. -/
def inBounds (r : R) : Bool :=
  match r.net_entries, r.net_exits with
  | some e, some x =>
      decide (0 ≤ e) && decide (0 ≤ x) && decide (e ≤ threshold) && decide (x ≤ threshold)
  | _, _ => false

/-- Column assignment `df['traffic'] = df['net_entries'] + df['net_exits']`. -/
def addTraffic (r : R) : R :=
  { r with traffic :=
      match r.net_entries, r.net_exits with
      | some e, some x => some (e + x)
      | _, _ => none }

/-- The full row transformation of `calc_nets` on a table without net
columns: diff / shift / dropna, then the threshold filter, then traffic. -/
def calcNetsRows (rows : List R) : List R :=
  ((netStage rows).filter inBounds).map addTraffic

/-- The Delta Reconciler `calc_nets`: early-return when both net columns are
already present, otherwise compute them. -/
def calc_nets (df : DF) : DF :=
  if df.hasNetEntries && df.hasNetExits then df
  else ⟨true, true, calcNetsRows df.rows⟩

/-- The wrangling pipeline of `run()` after file reading:
`calc_nets(clean(df))`, the raw table having no net columns. -/
def run_pipeline (rows : List R) : DF :=
  calc_nets ⟨false, false, clean rows⟩

/-- C1: a table that already has both net columns passes through `calc_nets`
unchanged, and therefore `calc_nets` is idempotent on every input. -/
theorem calc_nets_idempotent (df : DF) :
    calc_nets (calc_nets df) = calc_nets df
    ∧ (df.hasNetEntries = true → df.hasNetExits = true → calc_nets df = df) := by
  by_cases h : df.hasNetEntries && df.hasNetExits
  · constructor
    · simp [calc_nets, h]
    · intro _ _
      simp [calc_nets, h]
  · constructor
    · simp [calc_nets, h]
    · intro h1 h2
      rw [h1, h2] at h
      simp at h

/-- Witness for C1 at a concrete already-reconciled table. -/
def dfReconciled : DF := ⟨true, true, [cexAClean]⟩

theorem calc_nets_idempotent_witness :
    calc_nets dfReconciled = dfReconciled
    ∧ calc_nets (calc_nets dfReconciled) = calc_nets dfReconciled :=
  ⟨(calc_nets_idempotent dfReconciled).2 rfl rfl,
   (calc_nets_idempotent dfReconciled).1⟩

/-- C4: when `calc_nets` actually computes (input without net columns),
every output row has both nets defined, within `[0, threshold]`, and carries
`traffic = net_entries + net_exits`; moreover every output row is an
unmodified row of the diff stage that passed the bounds filter (rows are
dropped, never clamped), and no exception path exists (the function is
total). -/
theorem calc_nets_bounds (df : DF)
    (h : (df.hasNetEntries && df.hasNetExits) = false) :
    ∀ r ∈ (calc_nets df).rows,
      (∃ e x, r.net_entries = some e ∧ r.net_exits = some x
        ∧ 0 ≤ e ∧ e ≤ threshold ∧ 0 ≤ x ∧ x ≤ threshold
        ∧ r.traffic = some (e + x))
      ∧ ∃ s ∈ netStage df.rows, inBounds s = true ∧ r = addTraffic s := by
  intro r hr
  rw [calc_nets, if_neg (by simp [h])] at hr
  obtain ⟨s, hs, rfl⟩ := List.mem_map.1 hr
  have hsf := List.mem_filter.1 hs
  obtain ⟨hs1, hs2⟩ := hsf
  refine ⟨?_, s, hs1, hs2, rfl⟩
  unfold inBounds at hs2
  cases he : s.net_entries with
  | none => rw [he] at hs2; simp at hs2
  | some e =>
      cases hx : s.net_exits with
      | none => rw [he, hx] at hs2; simp at hs2
      | some x =>
          rw [he, hx] at hs2
          simp only [Bool.and_eq_true, decide_eq_true_eq] at hs2
          refine ⟨e, x, ?_, ?_, hs2.1.1.1, hs2.1.2, hs2.1.1.2, hs2.2, ?_⟩
          · simpa [addTraffic] using he
          · simpa [addTraffic] using hx
          · simp [addTraffic, he, hx]

/-- Concrete two-reading turnstile table for the C4 witness. -/
def dfTwoReadings : DF :=
  ⟨false, false,
    [{ c_a := "A", unit := "U", scp := "01", station := "S", linename := "L",
       division := "D", desc := some "REG", datetime := 0,
       entries := 100, exits := 10, tuid := 7, suid := 0, ts_count := 1 },
     { c_a := "A", unit := "U", scp := "01", station := "S", linename := "L",
       division := "D", desc := some "REG", datetime := 240,
       entries := 150, exits := 30, tuid := 7, suid := 0, ts_count := 1 }]⟩

theorem calc_nets_bounds_witness :
    ((dfTwoReadings.hasNetEntries && dfTwoReadings.hasNetExits) = false)
    ∧ ∀ r ∈ (calc_nets dfTwoReadings).rows,
        (∃ e x, r.net_entries = some e ∧ r.net_exits = some x
          ∧ 0 ≤ e ∧ e ≤ threshold ∧ 0 ≤ x ∧ x ≤ threshold
          ∧ r.traffic = some (e + x))
        ∧ ∃ s ∈ netStage dfTwoReadings.rows, inBounds s = true ∧ r = addTraffic s :=
  ⟨rfl, calc_nets_bounds dfTwoReadings rfl⟩

/-- C10: whenever `calc_nets` actually computes, its `dropna()` removes every
row with a missing value in *any* nullable column, not only the rows whose
net columns are undefined; in particular no row with a missing `desc` ever
reaches the output, even one with a valid successor and in-bounds nets. -/
theorem calc_nets_dropna_any_column (df : DF)
    (h : (df.hasNetEntries && df.hasNetExits) = false) :
    ∀ r ∈ (calc_nets df).rows, r.desc.isSome = true := by
  intro r hr
  rw [calc_nets, if_neg (by simp [h])] at hr
  obtain ⟨s, hs, rfl⟩ := List.mem_map.1 hr
  have hs1 := (List.mem_filter.1 hs).1
  have hs2 := (List.mem_filter.1 hs1).2
  unfold keepRow at hs2
  simp only [Bool.and_eq_true] at hs2
  simpa [addTraffic] using hs2.1.1

/-! Per-partition characterization of the diff / shift / dropna stage. -/

/-- Consecutive differences within one turnstile partition, started from a
previous value `v`: the value each row would get from the grouped diff. -/
def chainDiff (f : R → Int) : Int → List R → List (Option Int)
  | _, [] => []
  | v, s :: g => some (f s - v) :: chainDiff f (f s) g

/-- What the grouped diff produces on one contiguous partition: NaN for the
first row, then consecutive differences. -/
def blockDiff (f : R → Int) : List R → List (Option Int)
  | [] => []
  | r :: g => none :: chainDiff f (f r) g

/-- What the shifted diff column holds on one contiguous partition:
consecutive differences attached one row earlier, NaN on the last row. -/
def sblock (f : R → Int) : List R → List (Option Int)
  | [] => []
  | r :: g => chainDiff f (f r) g ++ [none]

/-- The per-partition output the spec describes: each consecutive pair
contributes the earlier reading carrying `next - current` for both counters;
the last reading of the partition contributes nothing. -/
def pairNets (g : List R) : List R :=
  (g.zip g.tail).map (fun p =>
    { p.1 with net_entries := some (p.2.entries - p.1.entries),
               net_exits := some (p.2.exits - p.1.exits) })

/-- Chronological sortedness of a partition (adjacent timestamps ascending). -/
def chronSorted : List R → Bool
  | [] => true
  | [_] => true
  | a :: b :: t => decide (a.datetime ≤ b.datetime) && chronSorted (b :: t)

theorem lookup_cons_self {t : Nat} {v : Int} {seen : List (Nat × Int)} :
    List.lookup t ((t, v) :: seen) = some v := by
  simp [List.lookup]

theorem lookup_cons_ne {u t : Nat} {v : Int} {seen : List (Nat × Int)}
    (h : u ≠ t) : List.lookup u ((t, v) :: seen) = List.lookup u seen := by
  have hb : (u == t) = false := by simpa using h
  simp [List.lookup, hb]

theorem groupDiff_chain (f : R → Int) (t : Nat) :
    ∀ (g : List R) (rest : List R) (v : Int) (seen : List (Nat × Int)),
      (∀ r ∈ g, r.tuid = t) →
      ∃ seen2, groupDiff f (g ++ rest) ((t, v) :: seen)
          = chainDiff f v g ++ groupDiff f rest seen2
        ∧ ∀ u, u ≠ t → List.lookup u seen2 = List.lookup u seen := by
  intro g
  induction g with
  | nil =>
      intro rest v seen _
      exact ⟨(t, v) :: seen, by simp [chainDiff], fun u hu => lookup_cons_ne hu⟩
  | cons s g' ih =>
      intro rest v seen hconst
      have hst : s.tuid = t := hconst s (List.mem_cons_self s g')
      have hconst' : ∀ r ∈ g', r.tuid = t :=
        fun r hr => hconst r (List.mem_cons_of_mem s hr)
      obtain ⟨seen2, heq, hlk⟩ := ih rest (f s) ((t, v) :: seen) hconst'
      refine ⟨seen2, ?_, fun u hu => (hlk u hu).trans (lookup_cons_ne hu)⟩
      show (match List.lookup s.tuid ((t, v) :: seen) with
            | some w => some (f s - w)
            | none => none) :: groupDiff f (g' ++ rest) ((s.tuid, f s) :: (t, v) :: seen)
          = (some (f s - v) :: chainDiff f (f s) g') ++ groupDiff f rest seen2
  -- the head reduces by `s.tuid = t`, the tail is the induction hypothesis
      rw [hst, lookup_cons_self, heq]
      rfl

theorem groupDiff_blocks (f : R → Int) :
    ∀ (ps : List (List R)) (seen : List (Nat × Int)),
      (∀ g ∈ ps, ∀ r ∈ g, ∀ s ∈ g, r.tuid = s.tuid) →
      ps.Pairwise (fun g h => ∀ r ∈ g, ∀ s ∈ h, r.tuid ≠ s.tuid) →
      (∀ g ∈ ps, ∀ r ∈ g, List.lookup r.tuid seen = none) →
      groupDiff f ps.flatten seen = (ps.map (blockDiff f)).flatten := by
  intro ps
  induction ps with
  | nil => intro seen _ _ _; rfl
  | cons g ps' ih =>
      intro seen hconst hdisj hlook
      have hdisj1 := (List.pairwise_cons.1 hdisj).1
      have hdisj' := (List.pairwise_cons.1 hdisj).2
      have hconst' : ∀ h ∈ ps', ∀ r ∈ h, ∀ s ∈ h, r.tuid = s.tuid :=
        fun h hh => hconst h (List.mem_cons_of_mem g hh)
      have hlook' : ∀ h ∈ ps', ∀ r ∈ h, List.lookup r.tuid seen = none :=
        fun h hh => hlook h (List.mem_cons_of_mem g hh)
      cases g with
      | nil =>
          simp only [List.flatten_cons, List.map_cons, blockDiff, List.nil_append]
          exact ih seen hconst' hdisj' hlook'
      | cons r g' =>
          have hg : g' ++ ps'.flatten = (g' ++ ps'.flatten) := rfl
          have hr0 : List.lookup r.tuid seen = none :=
            hlook _ (List.mem_cons_self _ _) r (List.mem_cons_self r g')
          have hconstg : ∀ x ∈ g', x.tuid = r.tuid := fun x hx =>
            hconst _ (List.mem_cons_self _ _) x (List.mem_cons_of_mem r hx)
              r (List.mem_cons_self r g')
          obtain ⟨seen2, heq, hlk⟩ :=
            groupDiff_chain f r.tuid g' ps'.flatten (f r) seen hconstg
          have hlook2 : ∀ h ∈ ps', ∀ s ∈ h, List.lookup s.tuid seen2 = none := by
            intro h hh s hs
            have hne : s.tuid ≠ r.tuid :=
              fun e => hdisj1 h hh r (List.mem_cons_self r g') s hs e.symm
            rw [hlk s.tuid hne]
            exact hlook' h hh s hs
          have htail := ih seen2 hconst' hdisj' hlook2
          show (match List.lookup r.tuid seen with
                | some w => some (f r - w)
                | none => none) :: groupDiff f (g' ++ ps'.flatten) ((r.tuid, f r) :: seen)
              = ((none :: chainDiff f (f r) g') ++ (ps'.map (blockDiff f)).flatten)
          rw [hr0, heq, htail]
          rfl

theorem blockDiff_rot (f : R → Int) :
    ∀ ps : List (List R),
      (ps.map (blockDiff f)).flatten ++ [none]
        = none :: (ps.map (sblock f)).flatten := by
  intro ps
  induction ps with
  | nil => rfl
  | cons g ps' ih =>
      cases g with
      | nil =>
          simpa [blockDiff, sblock] using ih
      | cons r g' =>
          show ((none :: chainDiff f (f r) g') ++ (ps'.map (blockDiff f)).flatten) ++ [none]
            = none :: ((chainDiff f (f r) g' ++ [none]) ++ (ps'.map (sblock f)).flatten)
          rw [List.cons_append, List.cons_append, List.append_assoc, ih,
            List.append_assoc]
          rfl

theorem shiftUp_of_rot {J S : List (Option Int)}
    (h : J ++ [none] = none :: S) : shiftUp J = S := by
  cases J with
  | nil =>
      rw [List.nil_append] at h
      injection h
  | cons c tl =>
      rw [List.cons_append] at h
      injection h

theorem shiftUp_blocks (f : R → Int) (ps : List (List R)) :
    shiftUp ((ps.map (blockDiff f)).flatten) = (ps.map (sblock f)).flatten :=
  shiftUp_of_rot (blockDiff_rot f ps)

theorem chainDiff_length (f : R → Int) :
    ∀ (g : List R) (v : Int), (chainDiff f v g).length = g.length := by
  intro g
  induction g with
  | nil => intro v; rfl
  | cons s g' ih => intro v; simp [chainDiff, ih]

theorem sblock_length (f : R → Int) (g : List R) :
    (sblock f g).length = g.length := by
  cases g with
  | nil => rfl
  | cons r g' => simp [sblock, chainDiff_length]

theorem setNets_append :
    ∀ (g rows : List R) (e1 es x1 xs : List (Option Int)),
      g.length = e1.length → g.length = x1.length →
      setNets (g ++ rows) (e1 ++ es) (x1 ++ xs)
        = setNets g e1 x1 ++ setNets rows es xs := by
  intro g
  induction g with
  | nil =>
      intro rows e1 es x1 xs he hx
      have he0 : e1 = [] := List.eq_nil_of_length_eq_zero he.symm
      have hx0 : x1 = [] := List.eq_nil_of_length_eq_zero hx.symm
      rw [he0, hx0]
      rfl
  | cons r g' ih =>
      intro rows e1 es x1 xs he hx
      cases e1 with
      | nil => simp at he
      | cons e e1' =>
          cases x1 with
          | nil => simp at hx
          | cons x x1' =>
              simp only [List.length_cons, Nat.succ.injEq] at he hx
              simp only [List.cons_append, setNets]
              congr 1
              exact ih rows e1' es x1' xs he hx

theorem pairNets_cons_cons (r s : R) (g : List R) :
    pairNets (r :: s :: g)
      = { r with net_entries := some (s.entries - r.entries),
                 net_exits := some (s.exits - r.exits) } :: pairNets (s :: g) := by
  simp [pairNets]

theorem block_sets_aux :
    ∀ (g' : List R) (r : R), r.desc.isSome = true →
      (∀ x ∈ g', x.desc.isSome = true) →
      dropna (setNets (r :: g')
          (chainDiff (fun z => z.entries) r.entries g' ++ [none])
          (chainDiff (fun z => z.exits) r.exits g' ++ [none]))
        = pairNets (r :: g') := by
  intro g'
  induction g' with
  | nil =>
      intro r _ _
      simp [chainDiff, setNets, dropna, keepRow, pairNets]
  | cons s g'' ih =>
      intro r hr hall
      have hs : s.desc.isSome = true := hall s (List.mem_cons_self s g'')
      have hall' : ∀ x ∈ g'', x.desc.isSome = true :=
        fun x hx => hall x (List.mem_cons_of_mem s hx)
      show dropna ({ r with net_entries := some (s.entries - r.entries),
                            net_exits := some (s.exits - r.exits) } ::
          setNets (s :: g'')
            (chainDiff (fun z => z.entries) s.entries g'' ++ [none])
            (chainDiff (fun z => z.exits) s.exits g'' ++ [none])) = _
      rw [pairNets_cons_cons]
      unfold dropna
      rw [List.filter_cons_of_pos (by simp [keepRow, hr])]
      rw [show List.filter keepRow (setNets (s :: g'')
          (chainDiff (fun z => z.entries) s.entries g'' ++ [none])
          (chainDiff (fun z => z.exits) s.exits g'' ++ [none]))
        = pairNets (s :: g'') from ih s hs hall']

theorem netStage_blocks_aux :
    ∀ ps : List (List R),
      (∀ g ∈ ps, ∀ r ∈ g, r.desc.isSome = true) →
      dropna (setNets ps.flatten
          ((ps.map (sblock (fun z => z.entries))).flatten)
          ((ps.map (sblock (fun z => z.exits))).flatten))
        = (ps.map pairNets).flatten := by
  intro ps
  induction ps with
  | nil => intro _; rfl
  | cons g ps' ih =>
      intro hdesc
      have hdesc1 : ∀ r ∈ g, r.desc.isSome = true :=
        hdesc g (List.mem_cons_self g ps')
      have hdesc' : ∀ h ∈ ps', ∀ r ∈ h, r.desc.isSome = true :=
        fun h hh => hdesc h (List.mem_cons_of_mem g hh)
      simp only [List.flatten_cons, List.map_cons]
      rw [setNets_append g ps'.flatten _ _ _ _
        (sblock_length _ g).symm (sblock_length _ g).symm]
      unfold dropna
      rw [List.filter_append]
      have hblock : List.filter keepRow (setNets g
          (sblock (fun z => z.entries) g) (sblock (fun z => z.exits) g))
          = pairNets g := by
        cases g with
        | nil => rfl
        | cons r g' =>
            have hr : r.desc.isSome = true := hdesc1 r (List.mem_cons_self r g')
            have hg' : ∀ x ∈ g', x.desc.isSome = true :=
              fun x hx => hdesc1 x (List.mem_cons_of_mem r hx)
            exact block_sets_aux g' r hr hg'
      rw [hblock]
      have ih2 := ih hdesc'
      unfold dropna at ih2
      rw [ih2]

/-- C3: on a chronologically sorted input made of contiguous single-turnstile
partitions with pairwise distinct turnstile ids (and no missing values in the
raw columns), the diff / shift / dropna stage of `calc_nets` produces exactly,
partition by partition, one row per consecutive pair of readings — the
*earlier* reading of the pair carrying `net_entries = next.entries -
current.entries` and `net_exits = next.exits - current.exits` — with the last
reading of every partition dropped (not retained with a null).  Consequently
`calc_nets` returns these pair rows filtered by the threshold bounds, a
partition of `n` readings contributes `n - 1` rows to the stage, and a
single-reading partition contributes zero rows (no error is possible: the
function is total). -/
theorem calc_nets_pairing (ps : List (List R))
    (hconst : ∀ g ∈ ps, ∀ r ∈ g, ∀ s ∈ g, r.tuid = s.tuid)
    (hdisj : ps.Pairwise (fun g h => ∀ r ∈ g, ∀ s ∈ h, r.tuid ≠ s.tuid))
    (_hchron : ∀ g ∈ ps, chronSorted g = true)
    (hdesc : ∀ g ∈ ps, ∀ r ∈ g, r.desc.isSome = true) :
    netStage ps.flatten = (ps.map pairNets).flatten
    ∧ (calc_nets ⟨false, false, ps.flatten⟩).rows
        = ((ps.map pairNets).flatten.filter inBounds).map addTraffic
    ∧ (∀ g ∈ ps, (pairNets g).length = g.length - 1)
    ∧ (∀ g ∈ ps, g.length = 1 → pairNets g = []) := by
  have hlook : ∀ g ∈ ps, ∀ r ∈ g, List.lookup r.tuid ([] : List (Nat × Int)) = none :=
    fun _ _ _ _ => rfl
  have hmain : netStage ps.flatten = (ps.map pairNets).flatten := by
    unfold netStage
    rw [groupDiff_blocks _ ps [] hconst hdisj hlook,
      groupDiff_blocks _ ps [] hconst hdisj hlook,
      shiftUp_blocks, shiftUp_blocks]
    exact netStage_blocks_aux ps hdesc
  refine ⟨hmain, ?_, ?_, ?_⟩
  · show calcNetsRows ps.flatten = _
    unfold calcNetsRows
    rw [hmain]
  · intro g _
    simp only [pairNets, List.length_map, List.length_zip, List.length_tail]
    omega
  · intro g _ hg1
    obtain ⟨a, rfl⟩ := List.length_eq_one.1 hg1
    rfl

/-- Two concrete partitions (turnstile 3 with three readings, turnstile 8
with two) for the C3 witness. -/
def partA : List R :=
  [{ c_a := "A", unit := "U", scp := "01", station := "S", linename := "L",
     division := "D", desc := some "REG", datetime := 0,
     entries := 100, exits := 10, tuid := 3 },
   { c_a := "A", unit := "U", scp := "01", station := "S", linename := "L",
     division := "D", desc := some "REG", datetime := 240,
     entries := 150, exits := 20, tuid := 3 },
   { c_a := "A", unit := "U", scp := "01", station := "S", linename := "L",
     division := "D", desc := some "REG", datetime := 480,
     entries := 400, exits := 30, tuid := 3 }]

/-- First reading of the second witness partition. -/
def rowB1 : R :=
  { c_a := "B", unit := "V", scp := "02", station := "T", linename := "M",
    division := "D", desc := some "REG", datetime := 0,
    entries := 10, exits := 1, tuid := 8 }

/-- Second witness partition. -/
def partB : List R :=
  [rowB1,
   { c_a := "B", unit := "V", scp := "02", station := "T", linename := "M",
     division := "D", desc := some "REG", datetime := 240,
     entries := 25, exits := 2, tuid := 8 }]

theorem calc_nets_pairing_witness :
    netStage ([partA, partB] : List (List R)).flatten
      = (([partA, partB] : List (List R)).map pairNets).flatten
    ∧ (pairNets partA).length = partA.length - 1
    ∧ pairNets [rowB1] = [] :=
  ⟨(calc_nets_pairing [partA, partB] (by decide) (by decide) (by decide)
      (by decide)).1,
   (calc_nets_pairing [partA, partB] (by decide) (by decide) (by decide)
      (by decide)).2.2.1 partA (by decide),
   (calc_nets_pairing [[rowB1]] (by decide) (by decide) (by decide)
      (by decide)).2.2.2 [rowB1] (by decide) (by decide)⟩

/-! The Aggregator `agg_by`. -/

/-- A grouping key of `agg_by`: either one of the two default columns
(`'datetime'`, `'tuid'`), a spatial id column, or one of the derived
temporal key columns built from `datetime`. -/
inductive AggKey
  | dtcol
  | tuid
  | buid
  | suid
  | dateCol
  | timeCol
  | dayCol
  | weekendCol
deriving DecidableEq

/-- Calendar date of a row (`df['datetime'].dt.date`). -/
def dateOf (r : R) : Nat := r.datetime / 1440

/-- Time of day of a row (`df['datetime'].dt.time`). -/
def timeOf (r : R) : Nat := r.datetime % 1440

/-- Day of week of a row (`df['datetime'].dt.day_name()`, coded 0..6). -/
def dayOf (r : R) : Nat := (r.datetime / 1440) % 7

/-- Value of one grouping key on one row (`'week/end'` coded weekend = 1). -/
def keyVal : AggKey → R → Nat
  | .dtcol, r => r.datetime
  | .tuid, r => r.tuid
  | .buid, r => r.buid
  | .suid, r => r.suid
  | .dateCol, r => dateOf r
  | .timeCol, r => timeOf r
  | .dayCol, r => dayOf r
  | .weekendCol, r => if 5 ≤ dayOf r then 1 else 0

/-- The grouping-key list `aggs` that `agg_by` assembles from its arguments:
start from `['datetime', 'tuid']`, replace the spatial slot for `'booth'` /
`'station'`, replace the whole list for `'date'` / `'time'`, prepend for
`'day'` / `'week/end'`. -/
def aggKeys (args : List String) : List AggKey :=
  let a1 : AggKey :=
    if "booth" ∈ args then .buid else if "station" ∈ args then .suid else .tuid
  let aggs : List AggKey :=
    if "date" ∈ args then [a1, .dateCol]
    else if "time" ∈ args then [a1, .timeCol]
    else [.dtcol, a1]
  if "day" ∈ args then .dayCol :: aggs
  else if "week/end" ∈ args then .weekendCol :: aggs
  else aggs

/-- Composite group key of a row for a key list. -/
def keyTuple (ks : List AggKey) (r : R) : List Nat :=
  ks.map (fun k => keyVal k r)

/-- Model of `df.groupby(aggs)[['net_entries','net_exits']].sum()`: one
output row per distinct composite key, carrying the key and the two sums
over that key's rows (pandas sums treat NaN as 0; output row order is not
contractual, the spec leaves it undefined). -/
def groupSum (rows : List R) (ks : List AggKey) : List (List Nat × Int × Int) :=
  (uniques (rows.map (keyTuple ks))).map (fun key =>
    (key,
     ((rows.filter (fun r => decide (keyTuple ks r = key))).map
        (fun r => r.net_entries.getD 0)).sum,
     ((rows.filter (fun r => decide (keyTuple ks r = key))).map
        (fun r => r.net_exits.getD 0)).sum))

/-- The Aggregator `agg_by`: raises `ValueError('Incorrect input
argument(s)')` when the assembled key list is still the default
`['datetime','tuid']` (no recognized argument), otherwise returns the
grouped sums. -/
def agg_by (df : DF) (args : List String) :
    Except String (List (List Nat × Int × Int)) :=
  if aggKeys args = [.dtcol, .tuid] then
    .error "Incorrect input argument(s)"
  else
    .ok (groupSum df.rows (aggKeys args))

/-- C5 helper: the assembled keys equal the rejected default exactly when no
recognized argument occurs. -/
theorem aggKeys_default_iff (args : List String) :
    aggKeys args = [.dtcol, .tuid]
      ↔ ("date" ∉ args ∧ "time" ∉ args ∧ "day" ∉ args ∧ "week/end" ∉ args
          ∧ "booth" ∉ args ∧ "station" ∉ args) := by
  by_cases h1 : "booth" ∈ args <;> by_cases h2 : "station" ∈ args <;>
    by_cases h3 : "date" ∈ args <;> by_cases h4 : "time" ∈ args <;>
    by_cases h5 : "day" ∈ args <;> by_cases h6 : "week/end" ∈ args <;>
    simp [aggKeys, h1, h2, h3, h4, h5, h6]

/-- C5: `agg_by` fails if and only if none of the six recognized grain
arguments (`'date'`, `'time'`, `'day'`, `'week/end'`, `'booth'`,
`'station'`) is supplied; the failure is the immediate configuration error
`ValueError('Incorrect input argument(s)')`, with no aggregate computed, and
whenever at least one recognized grain is present the call returns an
aggregate. -/
theorem agg_by_error_iff (df : DF) (args : List String) :
    (agg_by df args = .error "Incorrect input argument(s)"
      ↔ ("date" ∉ args ∧ "time" ∉ args ∧ "day" ∉ args ∧ "week/end" ∉ args
          ∧ "booth" ∉ args ∧ "station" ∉ args))
    ∧ ((∃ out, agg_by df args = .ok out)
      ↔ ("date" ∈ args ∨ "time" ∈ args ∨ "day" ∈ args ∨ "week/end" ∈ args
          ∨ "booth" ∈ args ∨ "station" ∈ args)) := by
  by_cases h : aggKeys args = [.dtcol, .tuid]
  · have hnone := (aggKeys_default_iff args).1 h
    constructor
    · simp only [agg_by, if_pos h]
      exact ⟨fun _ => hnone, fun _ => trivial⟩
    · constructor
      · rintro ⟨out, hout⟩
        rw [agg_by, if_pos h] at hout
        simp at hout
      · rintro (hc | hc | hc | hc | hc | hc) <;>
          [exact absurd hc hnone.1; exact absurd hc hnone.2.1;
           exact absurd hc hnone.2.2.1; exact absurd hc hnone.2.2.2.1;
           exact absurd hc hnone.2.2.2.2.1; exact absurd hc hnone.2.2.2.2.2]
  · have hsome : ¬("date" ∉ args ∧ "time" ∉ args ∧ "day" ∉ args
        ∧ "week/end" ∉ args ∧ "booth" ∉ args ∧ "station" ∉ args) :=
      fun hc => h ((aggKeys_default_iff args).2 hc)
    constructor
    · simp only [agg_by, if_neg h]
      exact ⟨fun hc => by simp at hc, fun hc => absurd hc hsome⟩
    · constructor
      · intro _
        by_contra hor
        push_neg at hor
        exact hsome ⟨hor.1, hor.2.1, hor.2.2.1, hor.2.2.2.1,
          hor.2.2.2.2.1, hor.2.2.2.2.2⟩
      · intro _
        exact ⟨groupSum df.rows (aggKeys args), by rw [agg_by, if_neg h]⟩

/-- Witness for C5: `agg_by` on `['date']` succeeds, and on an unrecognized
argument list fails. -/
theorem agg_by_error_iff_witness :
    ((∃ out, agg_by dfTwoReadings ["date"] = .ok out)
      ↔ ("date" ∈ ["date"] ∨ "time" ∈ ["date"] ∨ "day" ∈ ["date"]
          ∨ "week/end" ∈ ["date"] ∨ "booth" ∈ ["date"] ∨ "station" ∈ ["date"]))
    ∧ (agg_by dfTwoReadings ["nonsense"] = .error "Incorrect input argument(s)"
      ↔ ("date" ∉ ["nonsense"] ∧ "time" ∉ ["nonsense"] ∧ "day" ∉ ["nonsense"]
          ∧ "week/end" ∉ ["nonsense"] ∧ "booth" ∉ ["nonsense"]
          ∧ "station" ∉ ["nonsense"])) :=
  ⟨(agg_by_error_iff dfTwoReadings ["date"]).2,
   (agg_by_error_iff dfTwoReadings ["nonsense"]).1⟩

/-! Sum conservation of grouped sums. -/

theorem sum_filter_disjoint {α : Type} (p q : α → Bool) (f : α → Int) :
    ∀ l : List α, (∀ a, ¬(p a = true ∧ q a = true)) →
      ((l.filter (fun a => p a || q a)).map f).sum
        = ((l.filter p).map f).sum + ((l.filter q).map f).sum := by
  intro l
  induction l with
  | nil => intro _; simp
  | cons a t ih =>
      intro hpq
      have iht := ih hpq
      by_cases hp : p a = true
      · have hq : q a = false := by
          cases hqv : q a
          · rfl
          · exact absurd ⟨hp, hqv⟩ (hpq a)
        simp only [List.filter_cons, hp, hq]
        simp [iht]
        ring
      · have hp' : p a = false := by
          cases hpv : p a
          · rfl
          · exact absurd hpv hp
        by_cases hq : q a = true
        · simp only [List.filter_cons, hp', hq]
          simp [iht]
          ring
        · have hq' : q a = false := by
            cases hqv : q a
            · rfl
            · exact absurd hqv hq
          simp only [List.filter_cons, hp', hq']
          simp [iht]

theorem sum_fibers {α κ : Type} [DecidableEq κ] (key : α → κ) (f : α → Int)
    (l : List α) :
    ∀ ks : List κ, ks.Nodup →
      ((ks.map (fun k =>
          ((l.filter (fun a => decide (key a = k))).map f).sum)).sum
        = ((l.filter (fun a => decide (key a ∈ ks))).map f).sum) := by
  intro ks
  induction ks with
  | nil =>
      intro _
      have : l.filter (fun a => decide (key a ∈ ([] : List κ))) = [] := by
        simp
      simp [this]
  | cons k ks' ih =>
      intro hnd
      have hk : k ∉ ks' := (List.nodup_cons.1 hnd).1
      have hnd' : ks'.Nodup := (List.nodup_cons.1 hnd).2
      have hdisj : ∀ a, ¬(decide (key a = k) = true ∧ decide (key a ∈ ks') = true) := by
        intro a hc
        have h1 : key a = k := of_decide_eq_true hc.1
        have h2 : key a ∈ ks' := of_decide_eq_true hc.2
        exact hk (h1 ▸ h2)
      have hcongr : l.filter (fun a => decide (key a ∈ k :: ks'))
          = l.filter (fun a => decide (key a = k) || decide (key a ∈ ks')) := by
        refine List.filter_congr ?_
        intro a _
        by_cases h1 : key a = k <;> by_cases h2 : key a ∈ ks' <;>
          simp [List.mem_cons, h1, h2]
      simp only [List.map_cons, List.sum_cons, ih hnd', hcongr,
        sum_filter_disjoint _ _ f l hdisj]

theorem sum_groups {α κ : Type} [DecidableEq κ] (key : α → κ) (P : κ → Bool)
    (f : α → Int) (l : List α) :
    (((uniques (l.map key)).filter P).map (fun k =>
        ((l.filter (fun a => decide (key a = k))).map f).sum)).sum
      = ((l.filter (fun a => P (key a))).map f).sum := by
  have hnd : ((uniques (l.map key)).filter P).Nodup :=
    (nodup_uniques (l.map key)).filter P
  rw [sum_fibers key f l _ hnd]
  have hcongr : l.filter (fun a => decide (key a ∈ (uniques (l.map key)).filter P))
      = l.filter (fun a => P (key a)) := by
    refine List.filter_congr ?_
    intro a ha
    have hmem : key a ∈ uniques (l.map key) :=
      mem_uniques.2 (List.mem_map_of_mem key ha)
    simp [List.mem_filter, hmem]
  rw [hcongr]

/-- Total of the summed `net_entries` over the aggregate rows whose second
key coordinate (the date) equals `d` — the `groupby('date').sum()` lookup
of `total_daily_entries`. -/
def dateTotalE (agg : List (List Nat × Int × Int)) (d : Nat) : Int :=
  ((agg.filter (fun g => decide (g.1.getD 1 0 = d))).map (fun g => g.2.1)).sum

/-- Same as `dateTotalE` for the summed `net_exits`. -/
def dateTotalX (agg : List (List Nat × Int × Int)) (d : Nat) : Int :=
  ((agg.filter (fun g => decide (g.1.getD 1 0 = d))).map (fun g => g.2.2)).sum

theorem groupSum_filter_sumE (rows : List R) (ks : List AggKey)
    (P : List Nat → Bool) :
    (((groupSum rows ks).filter (fun g => P g.1)).map (fun g => g.2.1)).sum
      = ((rows.filter (fun r => P (keyTuple ks r))).map
          (fun r => r.net_entries.getD 0)).sum := by
  unfold groupSum
  rw [List.filter_map, List.map_map]
  exact sum_groups (keyTuple ks) P _ rows

theorem groupSum_filter_sumX (rows : List R) (ks : List AggKey)
    (P : List Nat → Bool) :
    (((groupSum rows ks).filter (fun g => P g.1)).map (fun g => g.2.2)).sum
      = ((rows.filter (fun r => P (keyTuple ks r))).map
          (fun r => r.net_exits.getD 0)).sum := by
  unfold groupSum
  rw [List.filter_map, List.map_map]
  exact sum_groups (keyTuple ks) P _ rows

/-- C6: for a table with at least two stations and two dates, and any date
`d` occurring in it, summing the per-(station, date) aggregate of
`agg_by(df, 'date', 'station')` across all stations at date `d` gives the
same total as aggregating with `agg_by(df, 'date')` alone and summing at
date `d`, and both equal the plain row sum over the rows of date `d` —
aggregation neither double-counts nor drops net counts (entries and exits
alike). -/
theorem agg_by_sum_conservation (rows : List R) (d : Nat)
    (_hs : 2 ≤ (uniques (rows.map (fun r => r.suid))).length)
    (_hd : 2 ≤ (uniques (rows.map dateOf)).length)
    (_hmem : d ∈ rows.map dateOf) :
    dateTotalE (groupSum rows (aggKeys ["date", "station"])) d
        = dateTotalE (groupSum rows (aggKeys ["date"])) d
    ∧ dateTotalE (groupSum rows (aggKeys ["date", "station"])) d
        = ((rows.filter (fun r => decide (dateOf r = d))).map
            (fun r => r.net_entries.getD 0)).sum
    ∧ dateTotalX (groupSum rows (aggKeys ["date", "station"])) d
        = dateTotalX (groupSum rows (aggKeys ["date"])) d
    ∧ dateTotalX (groupSum rows (aggKeys ["date", "station"])) d
        = ((rows.filter (fun r => decide (dateOf r = d))).map
            (fun r => r.net_exits.getD 0)).sum := by
  have hks1 : aggKeys ["date", "station"] = [AggKey.suid, AggKey.dateCol] := by
    decide
  have hks2 : aggKeys ["date"] = [AggKey.tuid, AggKey.dateCol] := by decide
  rw [hks1, hks2]
  have he1 : dateTotalE (groupSum rows [AggKey.suid, AggKey.dateCol]) d
      = ((rows.filter (fun r => decide (dateOf r = d))).map
          (fun r => r.net_entries.getD 0)).sum :=
    groupSum_filter_sumE rows [AggKey.suid, AggKey.dateCol]
      (fun key => decide (key.getD 1 0 = d))
  have he2 : dateTotalE (groupSum rows [AggKey.tuid, AggKey.dateCol]) d
      = ((rows.filter (fun r => decide (dateOf r = d))).map
          (fun r => r.net_entries.getD 0)).sum :=
    groupSum_filter_sumE rows [AggKey.tuid, AggKey.dateCol]
      (fun key => decide (key.getD 1 0 = d))
  have hx1 : dateTotalX (groupSum rows [AggKey.suid, AggKey.dateCol]) d
      = ((rows.filter (fun r => decide (dateOf r = d))).map
          (fun r => r.net_exits.getD 0)).sum :=
    groupSum_filter_sumX rows [AggKey.suid, AggKey.dateCol]
      (fun key => decide (key.getD 1 0 = d))
  have hx2 : dateTotalX (groupSum rows [AggKey.tuid, AggKey.dateCol]) d
      = ((rows.filter (fun r => decide (dateOf r = d))).map
          (fun r => r.net_exits.getD 0)).sum :=
    groupSum_filter_sumX rows [AggKey.tuid, AggKey.dateCol]
      (fun key => decide (key.getD 1 0 = d))
  exact ⟨he1.trans he2.symm, he1, hx1.trans hx2.symm, hx1⟩

/-- A cleaned-and-reconciled row for aggregate-level witnesses. -/
def mkAggRow (s dt : Nat) (e x : Int) : R :=
  { c_a := "A", unit := "U", scp := "01", station := "S", linename := "L",
    division := "D", desc := some "REG", datetime := dt, entries := 0,
    exits := 0, tuid := s, suid := s, ts_count := 1,
    net_entries := some e, net_exits := some x }

/-- Witness table: two stations (suid 0 and 1), two dates (0 and 1). -/
def wAggRows : List R :=
  [mkAggRow 0 0 10 1, mkAggRow 1 0 20 2, mkAggRow 0 1440 30 3,
   mkAggRow 1 1440 40 4]

theorem agg_by_sum_conservation_witness :
    (2 ≤ (uniques (wAggRows.map (fun r => r.suid))).length)
    ∧ (2 ≤ (uniques (wAggRows.map dateOf)).length)
    ∧ (0 ∈ wAggRows.map dateOf)
    ∧ (dateTotalE (groupSum wAggRows (aggKeys ["date", "station"])) 0
        = dateTotalE (groupSum wAggRows (aggKeys ["date"])) 0
      ∧ dateTotalE (groupSum wAggRows (aggKeys ["date", "station"])) 0
        = ((wAggRows.filter (fun r => decide (dateOf r = 0))).map
            (fun r => r.net_entries.getD 0)).sum
      ∧ dateTotalX (groupSum wAggRows (aggKeys ["date", "station"])) 0
        = dateTotalX (groupSum wAggRows (aggKeys ["date"])) 0
      ∧ dateTotalX (groupSum wAggRows (aggKeys ["date", "station"])) 0
        = ((wAggRows.filter (fun r => decide (dateOf r = 0))).map
            (fun r => r.net_exits.getD 0)).sum) :=
  ⟨by decide, by decide, by decide,
   agg_by_sum_conservation wAggRows 0 (by decide) (by decide) (by decide)⟩

/-! The Metrics Deriver: total daily entries and the share normalization. -/

/-- Total daily entries at date `d` as `total_daily_entries` computes it:
aggregate with `agg_by(df, 'date', 'station')`, group the result by date,
sum `net_entries`, and look the date up. -/
def tdeOf (rows : List R) (d : Nat) : Int :=
  dateTotalE (groupSum rows (aggKeys ["date", "station"])) d

theorem sum_div_const {α : Type} (f : α → Int) (c : ℚ) :
    ∀ l : List α,
      (l.map (fun a => ((f a : Int) : ℚ) / c)).sum = (((l.map f).sum : Int) : ℚ) / c := by
  intro l
  induction l with
  | nil => simp
  | cons a t ih =>
      simp only [List.map_cons, List.sum_cons, ih]
      push_cast
      rw [add_div]

/-- C7: for any table and any date `d` whose total daily entries `tdeOf` is
nonzero, the per-row shares `net_entries / TDE` (the `pct_de` column) summed
over all rows of date `d` equal exactly 1 (division modelled over exact
rationals, the float tolerance of the spec being the rounding allowance). -/
theorem pct_de_normalization (rows : List R) (d : Nat)
    (h : tdeOf rows d ≠ 0) :
    ((rows.filter (fun r => decide (dateOf r = d))).map
        (fun r => ((r.net_entries.getD 0 : Int) : ℚ) / ((tdeOf rows d : Int) : ℚ))).sum
      = 1 := by
  have hraw : tdeOf rows d
      = ((rows.filter (fun r => decide (dateOf r = d))).map
          (fun r => r.net_entries.getD 0)).sum := by
    show dateTotalE (groupSum rows (aggKeys ["date", "station"])) d = _
    rw [show aggKeys ["date", "station"] = [AggKey.suid, AggKey.dateCol] from
      by decide]
    exact groupSum_filter_sumE rows [AggKey.suid, AggKey.dateCol]
      (fun key => decide (key.getD 1 0 = d))
  rw [sum_div_const, ← hraw]
  exact div_self (Int.cast_ne_zero.2 h)

theorem pct_de_normalization_witness :
    (tdeOf wAggRows 0 ≠ 0)
    ∧ ((wAggRows.filter (fun r => decide (dateOf r = 0))).map
        (fun r => ((r.net_entries.getD 0 : Int) : ℚ) / ((tdeOf wAggRows 0 : Int) : ℚ))).sum
      = 1 :=
  ⟨by decide, pct_de_normalization wAggRows 0 (by decide)⟩

/-! The density metric and pandas float division. -/

/-- The values a pandas float column cell can take in this model: an exact
finite value, a signed infinity, or NaN (the missing value). -/
inductive PdFloat
  | fin (q : ℚ)
  | posInf
  | negInf
  | nan
deriving DecidableEq

/-- Whether a cell is missing in the pandas sense (`pd.isna`): only NaN is;
infinities are not missing. -/
def PdFloat.isNA : PdFloat → Bool
  | .nan => true
  | _ => false

/-- Whether a cell holds a finite value. -/
def PdFloat.isFinite : PdFloat → Bool
  | .fin _ => true
  | _ => false

/-- Pandas / numpy float division of two integer cells: division by zero
yields NaN for `0 / 0` and a signed infinity otherwise — never an
exception. -/
def pdDivInt (a b : Int) : PdFloat :=
  if b = 0 then (if a = 0 then .nan else if 0 < a then .posInf else .negInf)
  else .fin (((a : Int) : ℚ) / ((b : Int) : ℚ))

/-- Division where the numerator cell may itself be missing
(`NaN / x = NaN`). -/
def pdDivO (a : Option Int) (b : Int) : PdFloat :=
  match a with
  | none => .nan
  | some v => pdDivInt v b

/-- The density column of `get_metrics.density`:
`df['traffic'] / df['ts_count']`, one value per row. -/
def densityCol (rows : List R) : List PdFloat :=
  rows.map (fun r => pdDivO r.traffic (r.ts_count : Int))

/-- Degenerate row with a zero turnstile count but positive traffic. -/
def dRowDeg : R :=
  { c_a := "A", unit := "U", scp := "01", station := "S", linename := "L",
    division := "D", desc := some "REG", datetime := 0, entries := 0,
    exits := 0, ts_count := 0, net_entries := some 3, net_exits := some 2,
    traffic := some 5 }

/-- C8 (counterexample): on a row with turnstile count 0 and traffic 5 the
density computed by the code is `+inf`, which is *not* an undefined/missing
value (`pd.isna` is false on it) — refuting "density is an
undefined/missing value for all rows of that station".  (No exception is
raised: the division is total.) -/
theorem density_cex :
    densityCol [dRowDeg] = [PdFloat.posInf]
    ∧ dRowDeg.ts_count = 0
    ∧ PdFloat.isNA PdFloat.posInf = false := by decide

/-- C8 (amended): the density derivation is total — one value per row, no
divide-by-zero exception ever; and on a row whose turnstile count is zero
the density is never a finite value: it is NaN (missing) exactly when the
row's traffic is missing or zero, and a signed infinity otherwise. -/
theorem density_nonfinite (rows : List R) :
    (densityCol rows).length = rows.length
    ∧ ∀ r ∈ rows, r.ts_count = 0 →
        ((pdDivO r.traffic (r.ts_count : Int)).isFinite = false
          ∧ ((pdDivO r.traffic (r.ts_count : Int)).isNA = true
              ↔ (r.traffic = none ∨ r.traffic = some 0))) := by
  constructor
  · exact List.length_map rows _
  · intro r _ h0
    rw [h0]
    cases ht : r.traffic with
    | none => simp [pdDivO, PdFloat.isNA, PdFloat.isFinite]
    | some v =>
        by_cases hv : v = 0
        · simp [pdDivO, pdDivInt, hv, PdFloat.isNA, PdFloat.isFinite]
        · by_cases hpos : 0 < v
          · simp [pdDivO, pdDivInt, hv, hpos, PdFloat.isNA, PdFloat.isFinite]
          · simp [pdDivO, pdDivInt, hv, hpos, PdFloat.isNA, PdFloat.isFinite]

theorem density_nonfinite_witness :
    (densityCol [dRowDeg]).length = 1
    ∧ (pdDivO dRowDeg.traffic (dRowDeg.ts_count : Int)).isFinite = false :=
  ⟨(density_nonfinite [dRowDeg]).1,
   ((density_nonfinite [dRowDeg]).2 dRowDeg (by decide) rfl).1⟩

/-! The per-station turnstile count invariant. -/

theorem clean_ts_count_spec (rows : List R) :
    ∀ r ∈ clean rows,
      r.ts_count = (uniques (((clean rows).filter
          (fun x => decide (x.suid = r.suid))).map (fun x => x.tuid))).length
      ∧ 1 ≤ r.ts_count := by
  intro r hr
  rw [clean_eq_map] at hr
  obtain ⟨r1, hr1, rfl⟩ := List.mem_map.1 hr
  have hfm : (((clean rows).filter
        (fun x => decide (x.suid = r1.suid))).map (fun x => x.tuid))
      = (((sortRows (cleanTagged rows)).filter
        (fun x => decide (x.suid = r1.suid))).map (fun x => x.tuid)) := by
    rw [clean_eq_map, List.filter_map, List.map_map]
    rfl
  constructor
  · show tsc (sortRows (cleanTagged rows)) r1.suid
      = (uniques (((clean rows).filter
          (fun x => decide (x.suid = r1.suid))).map (fun x => x.tuid))).length
    rw [hfm]
    rfl
  · show 1 ≤ tsc (sortRows (cleanTagged rows)) r1.suid
    have hmem : r1.tuid ∈ ((sortRows (cleanTagged rows)).filter
        (fun x => decide (x.suid = r1.suid))).map (fun x => x.tuid) :=
      List.mem_map_of_mem _ (List.mem_filter.2 ⟨hr1, by simp⟩)
    have hne := uniques_ne_nil hmem
    exact Nat.one_le_iff_ne_zero.2 (fun h0 => hne (List.eq_nil_of_length_eq_zero h0))

theorem setNets_ts_count :
    ∀ (l : List R) (es xs : List (Option Int)),
      ∀ r ∈ setNets l es xs, ∃ s ∈ l, r.ts_count = s.ts_count := by
  intro l
  induction l with
  | nil => intro es xs r hr; cases hr
  | cons a t ih =>
      intro es xs r hr
      cases es with
      | nil => cases hr
      | cons e es' =>
          cases xs with
          | nil => cases hr
          | cons x xs' =>
              rcases List.mem_cons.1 hr with rfl | hm
              · exact ⟨a, List.mem_cons_self a t, rfl⟩
              · obtain ⟨s, hs, he⟩ := ih es' xs' r hm
                exact ⟨s, List.mem_cons_of_mem a hs, he⟩

/-- C9: in every table produced by `clean`, each row's `ts_count` equals the
number of distinct turnstile ids among the rows of the table sharing that
row's station id; hence `ts_count ≥ 1` on every row, and on every row the
whole pipeline (`calc_nets` after `clean`) produces the density divisor
`ts_count` is nonzero. -/
theorem ts_count_invariant (rows : List R) :
    (∀ r ∈ clean rows,
        r.ts_count = (uniques (((clean rows).filter
            (fun x => decide (x.suid = r.suid))).map (fun x => x.tuid))).length
        ∧ 1 ≤ r.ts_count)
    ∧ ∀ r ∈ (run_pipeline rows).rows, 1 ≤ r.ts_count := by
  refine ⟨clean_ts_count_spec rows, ?_⟩
  intro r hr
  have hrows : (run_pipeline rows).rows = calcNetsRows (clean rows) := by
    rw [run_pipeline, calc_nets, if_neg (by simp)]
  rw [hrows] at hr
  obtain ⟨s, hs, rfl⟩ := List.mem_map.1 hr
  have hs1 : s ∈ netStage (clean rows) := (List.mem_filter.1 hs).1
  have hs2 : s ∈ setNets (clean rows)
      (shiftUp (groupDiff (fun z => z.entries) (clean rows) []))
      (shiftUp (groupDiff (fun z => z.exits) (clean rows) [])) :=
    (List.mem_filter.1 hs1).1
  obtain ⟨u, hu, hts⟩ := setNets_ts_count (clean rows) _ _ s hs2
  have h1 : 1 ≤ u.ts_count := (clean_ts_count_spec rows u hu).2
  show 1 ≤ s.ts_count
  rw [hts]
  exact h1

/-- Witness for C9 on a concrete two-row raw table. -/
theorem ts_count_invariant_witness :
    cexAClean ∈ clean [cexA]
    ∧ (cexAClean.ts_count = (uniques (((clean [cexA]).filter
          (fun x => decide (x.suid = cexAClean.suid))).map
            (fun x => x.tuid))).length
        ∧ 1 ≤ cexAClean.ts_count)
    ∧ ∀ r ∈ (run_pipeline [cexA]).rows, 1 ≤ r.ts_count :=
  ⟨by decide, (ts_count_invariant [cexA]).1 cexAClean (by decide),
   (ts_count_invariant [cexA]).2⟩

/-- Three-reading table whose first reading has a missing `desc` but a valid
successor and in-bounds nets. -/
def dfDescMissing : DF :=
  ⟨false, false,
    [{ c_a := "A", unit := "U", scp := "01", station := "S", linename := "L",
       division := "D", desc := none, datetime := 0,
       entries := 0, exits := 0, tuid := 7, suid := 0, ts_count := 1 },
     { c_a := "A", unit := "U", scp := "01", station := "S", linename := "L",
       division := "D", desc := some "REG", datetime := 240,
       entries := 10, exits := 5, tuid := 7, suid := 0, ts_count := 1 },
     { c_a := "A", unit := "U", scp := "01", station := "S", linename := "L",
       division := "D", desc := some "REG", datetime := 480,
       entries := 20, exits := 9, tuid := 7, suid := 0, ts_count := 1 }]⟩

/-- Witness for C10: on `dfDescMissing` the first reading is dropped — even
though it has a valid successor and in-bounds nets (10 and 5) — so only the
middle reading survives. -/
theorem calc_nets_dropna_any_column_witness :
    ((dfDescMissing.hasNetEntries && dfDescMissing.hasNetExits) = false)
    ∧ (∀ r ∈ (calc_nets dfDescMissing).rows, r.desc.isSome = true)
    ∧ (calc_nets dfDescMissing).rows.length = 1 :=
  ⟨rfl, calc_nets_dropna_any_column dfDescMissing rfl, by decide⟩
